import Mathlib

/-!
# Verification of `MO_contextual_bandits`

Shallow embedding of the repository (files `misc.py` and `MOCB.py`) and
proofs about the claims of its specification.

Conventions of the embedding:

* numpy 1-D float arrays are embedded as `List R` (or `Fin n → R`) over a
  linear ordered field `R`; the theorems instantiate `R := ℚ` where concrete
  evaluation is wanted and `R := ℝ` where the source uses `np.exp`
  (`MOCB.mirror_descent`) or `np.linalg.inv` (the bandit loop).
  Floating point rounding is out of scope: arithmetic is exact.
* fallible numpy operations are embedded with `Option` (`np.min`/`np.max` of
  an empty array raise `ValueError`; a Python loop that never runs leaves its
  loop variable unbound, so using it afterwards raises `NameError`).
* the ambient random draws of `MOCB.gaussian_test` (features, reward noise,
  the true `Theta`) are supplied by an explicit environment oracle, following
  the specification's "Environment collaborator" interface.
-/

namespace Misc

variable {R : Type} [LinearOrderedField R]

/-- `np.sum` of a 1-D array. -/
def listSum (l : List R) : R := l.foldr (· + ·) 0

/-- `a.dot(b)` for two equal-length 1-D arrays. -/
def dotList (a b : List R) : R := listSum (List.zipWith (· * ·) a b)

/-- `np.min(v)` for a nonempty 1-D array (numpy raises on `[]`;
the embedding is only used under a nonemptiness hypothesis). -/
def listMin : List R → R
  | [] => 0
  | a :: l => l.foldl min a

/-- `np.max(v)` for a nonempty 1-D array. -/
def listMax : List R → R
  | [] => 0
  | a :: l => l.foldl max a

/-- `np.maximum(v - x, 0)`: elementwise clip of `v - x` at zero. -/
def clipBelow (v : List R) (x : R) : List R := v.map fun vi => max (vi - x) 0

/-- `misc.py` line 15: `func = lambda x: np.sum(np.maximum(v - x, 0)) - z`. -/
def func (v : List R) (z x : R) : R := listSum (clipBelow v x) - z

/-- `misc.py` lines 19-29: the bisection loop of
`projection_simplex_bisection`.  The `Nat` argument is the remaining fuel
(initially `max_iter`); the result is the final midpoint together with the
number of loop iterations actually executed.  When `max_iter = 0` the Python
loop body never runs, the name `midpoint` stays unbound and line 31 raises
`NameError`: embedded as `none`. -/
def bisectLoop (v : List R) (z tau : R) : Nat → R → R → Option (R × Nat)
  | 0, _, _ => none
  | fuel + 1, lower, upper =>
    let midpoint := (upper + lower) / 2
    let value := func v z midpoint
    if |value| ≤ tau then some (midpoint, 1)
    else if fuel = 0 then some (midpoint, 1)
    else if value ≤ 0 then
      (bisectLoop v z tau fuel lower midpoint).map fun p => (p.1, p.2 + 1)
    else
      (bisectLoop v z tau fuel midpoint upper).map fun p => (p.1, p.2 + 1)

/-- `misc.py` lines 3-31: `projection_simplex_bisection(v, z, tau, max_iter)`.
`np.min`/`np.max` of the empty array raise `ValueError`, embedded as `none`;
otherwise the function returns `np.maximum(v - midpoint, 0)` for the last
midpoint computed by the bisection loop. -/
def projection_simplex_bisection (v : List R) (z tau : R) (max_iter : Nat) :
    Option (List R) :=
  if v = [] then none
  else
    (bisectLoop v z tau max_iter (listMin v - z / (v.length : R)) (listMax v)).map
      fun p => clipBelow v p.1

/-- Squared Euclidean distance between two equal-length vectors. -/
def dist2 (a b : List R) : R := listSum ((a.zip b).map fun p => (p.1 - p.2) ^ 2)

end Misc

namespace MOCB

variable {R : Type} [LinearOrderedField R]

/-- `np.sort` of a 1-D array: ascending sort. -/
def sortAsc (l : List R) : List R := l.insertionSort (· ≤ ·)

/-- `MOCB.py` line 28: `self.w = np.power(2, np.linspace(0, -D+1, num=D))`.
For `num = D ≥ 1` samples `np.linspace(0, -D+1, D)` is exactly
`[0, -1, ..., -(D-1)]` (step `-1`), so `w = [2^0, 2^-1, ..., 2^-(D-1)]`,
computed exactly even in floats. -/
def wList (D : ℕ) : List R := (List.range D).map fun d => ((2 : R) ^ d)⁻¹

/-- `Theta.T.dot(X[k])` (`MOCB.py` lines 39, 53, 58): the length-`D`
per-objective vector of one arm, `(Theta.T.dot(x))[d] = Σ_m Theta[m][d]*x[m]`. -/
def thetaTX {M D : ℕ} (Theta : Fin M → Fin D → R) (x : Fin M → R) : Fin D → R :=
  fun d => ∑ m, Theta m d * x m

/-- The aggregate reward vector accumulated by the `for k` loops of
`MOCB.GGI` and `MOCB.grad` (lines 37-39, 51-53):
`x = Σ_k alpha[k] * Theta.T.dot(X[k])`. -/
def aggVec {K M D : ℕ} (alpha : Fin K → R) (Theta : Fin M → Fin D → R)
    (X : Fin K → Fin M → R) : Fin D → R :=
  fun d => ∑ k, alpha k * thetaTX Theta (X k) d

/-- `MOCB.GGI` (lines 30-41): returns `np.sort(x).dot(self.w)`. -/
def GGI {K M D : ℕ} (alpha : Fin K → R) (Theta : Fin M → Fin D → R)
    (X : Fin K → Fin M → R) : R :=
  Misc.dotList (sortAsc (List.ofFn (aggVec alpha Theta X))) (wList D)

/-- `np.argsort(x)` (line 54): a permutation of the indices that sorts `x`
ascending.  numpy's default quicksort leaves the order of tied entries
unspecified; the embedding fixes the stable (index-ascending) tie-break,
one legitimate resolution. -/
def argsortF {D : ℕ} (x : Fin D → R) : List (Fin D) :=
  (List.finRange D).insertionSort (fun i j => x i ≤ x j)

/-- `MOCB.grad` (lines 43-61): `gradient[k] = self.w.dot(temp[order])` with
`temp = Theta_hat.T.dot(X[k])` and `order = np.argsort(x)` recomputed from
the aggregate vector `x`. -/
def grad {K M D : ℕ} (alpha : Fin K → R) (Theta_hat : Fin M → Fin D → R)
    (X : Fin K → Fin M → R) : Fin K → R :=
  fun k =>
    Misc.dotList (wList D)
      ((argsortF (aggVec alpha Theta_hat X)).map fun d => thetaTX Theta_hat (X k) d)

/-- One iteration of `MOCB.mirror_descent` (lines 71-72):
`temp = np.multiply(alpha, np.exp(eta * grad)); alpha = temp / np.sum(temp)`. -/
noncomputable def mirrorStep {K M D : ℕ} (eta : ℝ) (Theta_hat : Fin M → Fin D → ℝ)
    (X : Fin K → Fin M → ℝ) (alpha : Fin K → ℝ) : Fin K → ℝ :=
  fun k => alpha k * Real.exp (eta * grad alpha Theta_hat X k) /
    ∑ j, alpha j * Real.exp (eta * grad alpha Theta_hat X j)

/-- `MOCB.mirror_descent` (lines 69-74): `Iiter` repetitions of `mirrorStep`
(`self.I` in the source). -/
noncomputable def mirror_descent {K M D : ℕ} (Iiter : ℕ) (eta : ℝ)
    (alpha : Fin K → ℝ) (Theta_hat : Fin M → Fin D → ℝ)
    (X : Fin K → Fin M → ℝ) : Fin K → ℝ :=
  match Iiter with
  | 0 => alpha
  | n + 1 => mirrorStep eta Theta_hat X (mirror_descent n eta alpha Theta_hat X)

/-- `np.argmax(alpha)` (line 98): the first index attaining the maximum
(numpy returns the lowest index among ties; it raises on an empty array, so
the embedding requires at least one arm). -/
noncomputable def argmaxF {n : ℕ} (f : Fin (n + 1) → ℝ) : Fin (n + 1) :=
  (List.finRange (n + 1)).foldl (fun best i => if f best < f i then i else best) 0

/-- The stochastic environment of `MOCB.gaussian_test`, supplied as an
oracle (the specification's "Environment collaborator"): `X t k` embeds the
feature draw of line 94 for round `t` and arm `k`, `Theta` the true weight
matrix of line 86, and `noise t` the per-objective reward noise of line 101. -/
structure Env (K M D : ℕ) where
  X : ℕ → Fin K → Fin M → ℝ
  Theta : Fin M → Fin D → ℝ
  noise : ℕ → Fin D → ℝ

/-- The mutable state of the `gaussian_test` loop (lines 83-107). -/
structure RunState (K M D : ℕ) where
  A : Matrix (Fin M) (Fin M) ℝ
  B : Matrix (Fin M) (Fin D) ℝ
  alpha : Fin K → ℝ
  rAve : Fin D → ℝ
  ggi : List ℝ

/-- The running metric of line 107: `np.sort(r_ave / t).dot(self.w)` where
`t` is the 0-based loop index — in particular round `t = 0` divides by zero
(numpy emits ±inf/nan there; the embedding inherits the junk value
`x / 0 = 0` of `ℝ`, and the theorems only use the divisor itself). -/
noncomputable def roundMetric {D : ℕ} (rAve : Fin D → ℝ) (t : ℕ) : ℝ :=
  Misc.dotList (sortAsc (List.ofFn fun d => rAve d / (t : ℝ))) (wList D)

/-- One round of `gaussian_test` (lines 90-107), 0-based round index `t`:
ridge estimate, mirror-descent refinement, argmax arm choice, reward
observation, statistics update, metric entry.

Line 104 is `A += X[k].dot(X[k].T)`: for the 1-D array `X[k]`, `.T` is the
identity and `.dot` is the inner product, a **scalar**, which numpy
broadcast-adds to every entry of `A` — the embedding reproduces exactly
that (not the outer product). Line 105 reshapes, so `B` does receive the
outer product `x·rᵀ`. -/
noncomputable def roundStep {n M D : ℕ} (eta : ℝ) (Iiter : ℕ)
    (env : Env (n + 1) M D) (t : ℕ) (s : RunState (n + 1) M D) :
    RunState (n + 1) M D :=
  let Theta_hat : Matrix (Fin M) (Fin D) ℝ := s.A⁻¹ * s.B
  let X := env.X t
  let alpha := mirror_descent Iiter eta s.alpha (fun m d => Theta_hat m d) X
  let k := argmaxF alpha
  let r : Fin D → ℝ := fun d => (∑ m, X k m * env.Theta m d) + env.noise t d
  let rAve := fun d => s.rAve d + r d
  { A := Matrix.of fun i j => s.A i j + ∑ m, X k m * X k m
    B := Matrix.of fun i j => s.B i j + X k i * r j
    alpha := alpha
    rAve := rAve
    ggi := s.ggi ++ [roundMetric rAve t] }

/-- The initial state of `gaussian_test` (lines 83-89): `A = lam * I`,
`B = 0`, uniform `alpha`, `r_ave = 0`, empty metric list. -/
noncomputable def initState (n M D : ℕ) (lam : ℝ) : RunState (n + 1) M D :=
  { A := lam • (1 : Matrix (Fin M) (Fin M) ℝ)
    B := 0
    alpha := fun _ => 1 / (n + 1 : ℝ)
    rAve := fun _ => 0
    ggi := [] }

/-- `MOCB.gaussian_test` after `t` completed rounds of the `for t in
range(T)` loop (lines 90-107): `gaussian_test env lam eta Iiter T` is the
state at loop exit of a run with `self.T = T`. -/
noncomputable def gaussian_test {n M D : ℕ} (env : Env (n + 1) M D)
    (lam eta : ℝ) (Iiter : ℕ) : ℕ → RunState (n + 1) M D
  | 0 => initState n M D lam
  | t + 1 => roundStep eta Iiter env t (gaussian_test env lam eta Iiter t)

/-- The configuration object built by `MOCB.__init__` (lines 11-28).
Python integers are embedded as `ℤ`.  The constructor merely stores its
arguments and derives `w`; it contains no validation code.  The only input
it can reject is `D < 0`, because `np.linspace(0, -D+1, num=D)` raises
`ValueError` for a negative sample count — embedded as `Except.error`. -/
structure Config where
  K : ℤ
  D : ℤ
  M : ℤ
  T : ℤ
  lam : ℚ
  eta : ℚ
  Iiter : ℤ
  w : List ℚ

/-- Symmetric positive definiteness, spelled with the explicit quadratic
form (the specification's invariant for the accumulator `A`). -/
def IsSPD {M : ℕ} (A : Matrix (Fin M) (Fin M) ℝ) : Prop :=
  (∀ i j, A i j = A j i) ∧
  ∀ v : Fin M → ℝ, v ≠ 0 → 0 < ∑ i, ∑ j, v i * A i j * v j

/-- A concrete deterministic environment (one arm, two features, one
objective): features fixed at `x = (1, 0)`, true `Theta = (1, 1)ᵀ`, no
reward noise.  Used to evaluate single rounds of the loop concretely. -/
noncomputable def envUnit : Env 1 2 1 :=
  { X := fun _ _ => ![1, 0]
    Theta := fun _ _ => 1
    noise := fun _ _ => 0 }

/-- `MOCB.__init__(K, D, M, T, lam, eta, I)`. -/
def init (K D M T : ℤ) (lam eta : ℚ) (Iiter : ℤ) : Except String Config :=
  if D < 0 then .error ("ValueError: Number of samples must be non-negative.")
  else .ok { K := K, D := D, M := M, T := T, lam := lam, eta := eta,
             Iiter := Iiter, w := wList D.toNat }

end MOCB

section Claims

/-- Helper for C4: with at least one iteration of fuel, the bisection loop
always returns a final midpoint, and the number of iterations it executed is
at least 1 and at most the fuel. -/
theorem bisectLoop_some {R : Type} [LinearOrderedField R] (v : List R) (z tau : R) :
    ∀ (fuel : ℕ) (lower upper : R), 1 ≤ fuel →
      ∃ m c, Misc.bisectLoop v z tau fuel lower upper = some (m, c) ∧
        1 ≤ c ∧ c ≤ fuel := by
  intro fuel
  induction fuel with
  | zero => intro _ _ h; omega
  | succ k ih =>
    intro lower upper _
    by_cases h1 : |Misc.func v z ((upper + lower) / 2)| ≤ tau
    · exact ⟨(upper + lower) / 2, 1, by simp [Misc.bisectLoop, h1], le_refl 1, by omega⟩
    · by_cases hk : k = 0
      · subst hk
        exact ⟨(upper + lower) / 2, 1, by simp [Misc.bisectLoop, h1], le_refl 1, by omega⟩
      · by_cases h2 : Misc.func v z ((upper + lower) / 2) ≤ 0
        · obtain ⟨m, c, heq, hc1, hc2⟩ := ih lower ((upper + lower) / 2) (by omega)
          exact ⟨m, c + 1, by simp [Misc.bisectLoop, h1, hk, h2, heq], by omega, by omega⟩
        · obtain ⟨m, c, heq, hc1, hc2⟩ := ih ((upper + lower) / 2) upper (by omega)
          exact ⟨m, c + 1, by simp [Misc.bisectLoop, h1, hk, h2, heq], by omega, by omega⟩

/-- **C4** (confirmed): `projection_simplex_bisection` always terminates: on
any nonempty input it performs at most `max_iter` bisection iterations, and
even when the tolerance test never fires it returns the well-defined vector
`np.maximum(v - midpoint, 0)` for the final midpoint. -/
theorem projection_terminates_within_max_iter {R : Type} [LinearOrderedField R]
    (v : List R) (z tau : R) (max_iter : ℕ) (hv : v ≠ []) (hi : 1 ≤ max_iter) :
    ∃ m c,
      Misc.bisectLoop v z tau max_iter (Misc.listMin v - z / (v.length : R))
          (Misc.listMax v) = some (m, c) ∧
      1 ≤ c ∧ c ≤ max_iter ∧
      Misc.projection_simplex_bisection v z tau max_iter =
        some (Misc.clipBelow v m) := by
  obtain ⟨m, c, heq, hc1, hc2⟩ :=
    bisectLoop_some v z tau max_iter (Misc.listMin v - z / (v.length : R))
      (Misc.listMax v) hi
  exact ⟨m, c, heq, hc1, hc2, by simp [Misc.projection_simplex_bisection, hv, heq]⟩

/-- Witness for C4 at the concrete input `v = [2, 0]`, `z = 1`,
`tau = 10⁻⁶`, `max_iter = 1000`. -/
theorem projection_terminates_within_max_iter_witness :
    (([(2 : ℚ), 0] : List ℚ) ≠ [] ∧ 1 ≤ 1000) ∧
    ∃ m c,
      Misc.bisectLoop [(2 : ℚ), 0] 1 (1 / 1000000) 1000
          (Misc.listMin [(2 : ℚ), 0] - 1 / (([(2 : ℚ), 0] : List ℚ).length : ℚ))
          (Misc.listMax [(2 : ℚ), 0]) = some (m, c) ∧
      1 ≤ c ∧ c ≤ 1000 ∧
      Misc.projection_simplex_bisection [(2 : ℚ), 0] 1 (1 / 1000000) 1000 =
        some (Misc.clipBelow [(2 : ℚ), 0] m) :=
  ⟨⟨by simp, by norm_num⟩,
    projection_terminates_within_max_iter [(2 : ℚ), 0] 1 (1 / 1000000) 1000
      (by simp) (by norm_num)⟩

/-- **C9** counterexample: constructing a configuration in which `K`, `M`,
`T`, `lam` and `I` are all non-positive (and `D = 0`) succeeds: `__init__`
performs no validation and raises nothing, so there is no fail-fast
configuration error at setup time. -/
theorem init_accepts_nonpositive_config :
    MOCB.init (-3) 0 0 (-1) 0 1 0 =
      .ok { K := -3, D := 0, M := 0, T := -1, lam := 0, eta := 1,
            Iiter := 0, w := [] } := by
  norm_num [MOCB.init, MOCB.wList]

/-- **C9** amended: the constructor performs no validation and fails for no
non-positive parameter except `D < 0` — and that failure is numpy's
`linspace` rejecting a negative sample count (`ValueError`), not a
configuration check: every input with `D ≥ 0` is accepted and stored
exactly as given. -/
theorem init_validates_only_negative_D (K D M T : ℤ) (lam eta : ℚ) (Iiter : ℤ) :
    (D < 0 → MOCB.init K D M T lam eta Iiter =
      .error ("ValueError: Number of samples must be non-negative.")) ∧
    (0 ≤ D → MOCB.init K D M T lam eta Iiter =
      .ok { K := K, D := D, M := M, T := T, lam := lam, eta := eta,
            Iiter := Iiter, w := MOCB.wList D.toNat }) := by
  constructor
  · intro h
    simp [MOCB.init, h]
  · intro h
    simp [MOCB.init, not_lt.mpr h]

/-- Witness for C9's amended statement at `D = -2` (rejected by `linspace`)
and `D = 2` (accepted despite `K = -1`). -/
theorem init_validates_only_negative_D_witness :
    (MOCB.init 1 (-2) 1 1 1 1 1 =
      .error ("ValueError: Number of samples must be non-negative.")) ∧
    (MOCB.init (-1) 2 1 1 1 1 1 =
      .ok { K := -1, D := 2, M := 1, T := 1, lam := 1, eta := 1,
            Iiter := 1, w := MOCB.wList ((2 : ℤ)).toNat }) :=
  ⟨(init_validates_only_negative_D 1 (-2) 1 1 1 1 1).1 (by norm_num),
   (init_validates_only_negative_D (-1) 2 1 1 1 1 1).2 (by norm_num)⟩

/-- **C5** (confirmed): `MOCB.GGI` returns exactly `w` dotted with the
ascending sort of the aggregate vector `x = Σ_k alpha[k]·(Thetaᵀ·X[k])`:
for any ascending rearrangement `s` of that aggregate vector the returned
value is `s ⬝ w`. -/
theorem GGI_value_eq_w_dot_sorted_aggregate {K M D : ℕ} (alpha : Fin K → ℚ)
    (Theta : Fin M → Fin D → ℚ) (X : Fin K → Fin M → ℚ) (s : List ℚ)
    (hperm : s.Perm (List.ofFn (MOCB.aggVec alpha Theta X)))
    (hsort : s.Sorted (· ≤ ·)) :
    MOCB.GGI alpha Theta X = Misc.dotList s (MOCB.wList D) := by
  have hs : s = MOCB.sortAsc (List.ofFn (MOCB.aggVec alpha Theta X)) :=
    List.eq_of_perm_of_sorted
      (hperm.trans (List.perm_insertionSort _ _).symm) hsort
      (List.sorted_insertionSort _ _)
  rw [MOCB.GGI, ← hs]

/-- Witness for C5: one arm, one feature, two objectives, aggregate vector
`[2, 3]`, already sorted. -/
theorem GGI_value_eq_w_dot_sorted_aggregate_witness :
    (([(2 : ℚ), 3] : List ℚ).Perm
        (List.ofFn (MOCB.aggVec (fun _ : Fin 1 => (1 : ℚ))
          (fun _ : Fin 1 => ![2, 3]) (fun _ _ => 1))) ∧
      ([(2 : ℚ), 3] : List ℚ).Sorted (· ≤ ·)) ∧
    MOCB.GGI (fun _ : Fin 1 => (1 : ℚ)) (fun _ : Fin 1 => ![2, 3])
        (fun _ _ => 1) =
      Misc.dotList [(2 : ℚ), 3] (MOCB.wList 2) := by
  have hofn : List.ofFn (MOCB.aggVec (fun _ : Fin 1 => (1 : ℚ))
      (fun _ : Fin 1 => ![2, 3]) (fun _ _ => 1)) = [(2 : ℚ), 3] := by
    simp [MOCB.aggVec, MOCB.thetaTX, List.ofFn_succ]
  have hperm : ([(2 : ℚ), 3] : List ℚ).Perm
      (List.ofFn (MOCB.aggVec (fun _ : Fin 1 => (1 : ℚ))
        (fun _ : Fin 1 => ![2, 3]) (fun _ _ => 1))) := by
    rw [hofn]
  have hsort : ([(2 : ℚ), 3] : List ℚ).Sorted (· ≤ ·) := by
    norm_num [List.sorted_cons]
  exact ⟨⟨hperm, hsort⟩,
    GGI_value_eq_w_dot_sorted_aggregate _ _ _ _ hperm hsort⟩

/-- **C6** (confirmed): `MOCB.grad` recomputes the aggregate vector `x` and
its ascending-sort permutation `order = argsort(x)` — a rearrangement of all
`D` indices whose reindexing of `x` equals the ascending sort of `x` — and
its `k`-th entry is `w` dotted with `Theta_hatᵀ·X[k]` reindexed by that very
same `order`. -/
theorem grad_applies_sort_permutation_of_aggregate {K M D : ℕ}
    (alpha : Fin K → ℚ) (Th : Fin M → Fin D → ℚ) (X : Fin K → Fin M → ℚ)
    (k : Fin K) :
    (MOCB.argsortF (MOCB.aggVec alpha Th X)).Perm (List.finRange D) ∧
    (MOCB.argsortF (MOCB.aggVec alpha Th X)).map (MOCB.aggVec alpha Th X) =
      MOCB.sortAsc (List.ofFn (MOCB.aggVec alpha Th X)) ∧
    MOCB.grad alpha Th X k =
      Misc.dotList (MOCB.wList D)
        ((MOCB.argsortF (MOCB.aggVec alpha Th X)).map
          (MOCB.thetaTX Th (X k))) := by
  set x := MOCB.aggVec alpha Th X with hx
  haveI hT : IsTotal (Fin D) (fun i j => x i ≤ x j) :=
    ⟨fun a b => le_total (x a) (x b)⟩
  haveI hTr : IsTrans (Fin D) (fun i j => x i ≤ x j) :=
    ⟨fun _ _ _ hab hbc => le_trans hab hbc⟩
  have h1 : (MOCB.argsortF x).Perm (List.finRange D) :=
    List.perm_insertionSort _ _
  refine ⟨h1, ?_, rfl⟩
  have hsortedKey : ((MOCB.argsortF x).map x).Sorted (· ≤ ·) :=
    (List.sorted_insertionSort (fun i j => x i ≤ x j) (List.finRange D)).map
      _ (fun _ _ h => h)
  have hpm : ((MOCB.argsortF x).map x).Perm (List.ofFn x) := by
    rw [List.ofFn_eq_map]
    exact h1.map x
  exact List.eq_of_perm_of_sorted
    (hpm.trans (List.perm_insertionSort _ _).symm) hsortedKey
    (List.sorted_insertionSort _ _)

/-- Helper for C7: one `mirrorStep` preserves nonnegativity and unit sum. -/
theorem mirrorStep_simplex {K M D : ℕ} (eta : ℝ) (Th : Fin M → Fin D → ℝ)
    (X : Fin K → Fin M → ℝ) (alpha : Fin K → ℝ)
    (h0 : ∀ k, 0 ≤ alpha k) (h1 : ∑ k, alpha k = 1) :
    (∀ k, 0 ≤ MOCB.mirrorStep eta Th X alpha k) ∧
      ∑ k, MOCB.mirrorStep eta Th X alpha k = 1 := by
  have hex : ∃ k0, 0 < alpha k0 := by
    by_contra h
    push_neg at h
    have hz : ∀ k, alpha k = 0 := fun k => le_antisymm (h k) (h0 k)
    rw [Finset.sum_congr rfl fun k _ => hz k] at h1
    simp at h1
  obtain ⟨k0, hk0⟩ := hex
  have hS : 0 < ∑ j, alpha j * Real.exp (eta * MOCB.grad alpha Th X j) := by
    refine Finset.sum_pos' (fun j _ => mul_nonneg (h0 j) (Real.exp_pos _).le) ?_
    exact ⟨k0, Finset.mem_univ k0, mul_pos hk0 (Real.exp_pos _)⟩
  constructor
  · intro k
    exact div_nonneg (mul_nonneg (h0 k) (Real.exp_pos _).le) hS.le
  · simp only [MOCB.mirrorStep]
    rw [← Finset.sum_div, div_self hS.ne']

/-- **C7** (confirmed): for input `alpha` on the probability simplex and
`eta > 0`, the multiplicative-weights ascent keeps `alpha` on the simplex
after each of its iterations: every `mirror_descent i` output is entrywise
nonnegative and sums to 1. -/
theorem mirror_descent_preserves_simplex {K M D : ℕ} (eta : ℝ)
    (Th : Fin M → Fin D → ℝ) (X : Fin K → Fin M → ℝ) (alpha : Fin K → ℝ)
    (h0 : ∀ k, 0 ≤ alpha k) (h1 : ∑ k, alpha k = 1) (_heta : 0 < eta) :
    ∀ i : ℕ, (∀ k, 0 ≤ MOCB.mirror_descent i eta alpha Th X k) ∧
      ∑ k, MOCB.mirror_descent i eta alpha Th X k = 1 := by
  intro i
  induction i with
  | zero => exact ⟨h0, h1⟩
  | succ n ih => exact mirrorStep_simplex eta Th X _ ih.1 ih.2

/-- Witness for C7: two arms, uniform `alpha`, zero estimate and features,
`eta = 1`. -/
theorem mirror_descent_preserves_simplex_witness :
    ((∀ k : Fin 2, 0 ≤ (fun _ : Fin 2 => (1 : ℝ) / 2) k) ∧
      (∑ k : Fin 2, (fun _ : Fin 2 => (1 : ℝ) / 2) k) = 1 ∧ (0 : ℝ) < 1) ∧
    ∀ i : ℕ,
      (∀ k, 0 ≤ MOCB.mirror_descent i 1 (fun _ : Fin 2 => (1 : ℝ) / 2)
        (fun _ : Fin 1 => fun _ : Fin 1 => 0) (fun _ _ => 0) k) ∧
      ∑ k, MOCB.mirror_descent i 1 (fun _ : Fin 2 => (1 : ℝ) / 2)
        (fun _ : Fin 1 => fun _ : Fin 1 => 0) (fun _ _ => 0) k = 1 := by
  have h0 : ∀ k : Fin 2, 0 ≤ (fun _ : Fin 2 => (1 : ℝ) / 2) k := fun _ => by
    norm_num
  have h1 : (∑ k : Fin 2, (fun _ : Fin 2 => (1 : ℝ) / 2) k) = 1 := by
    norm_num [Fin.sum_univ_two]
  exact ⟨⟨h0, h1, one_pos⟩,
    mirror_descent_preserves_simplex 1 _ _ _ h0 h1 one_pos⟩

/-- Helper for C10: one `mirrorStep` preserves strict positivity. -/
theorem mirrorStep_pos {K M D : ℕ} (eta : ℝ) (Th : Fin M → Fin D → ℝ)
    (X : Fin K → Fin M → ℝ) (alpha : Fin K → ℝ) (h0 : ∀ k, 0 < alpha k) :
    ∀ k, 0 < MOCB.mirrorStep eta Th X alpha k := by
  intro k
  have hS : 0 < ∑ j, alpha j * Real.exp (eta * MOCB.grad alpha Th X j) :=
    Finset.sum_pos (fun j _ => mul_pos (h0 j) (Real.exp_pos _))
      ⟨k, Finset.mem_univ k⟩
  exact div_pos (mul_pos (h0 k) (Real.exp_pos _)) hS

/-- **C10** (confirmed): when every entry of the input `alpha` is strictly
positive, every entry of the multiplicative-weights ascent output stays
strictly positive after any number of iterations: the elementwise positive
scaling followed by renormalization can never assign exactly zero
probability to an arm. -/
theorem mirror_descent_preserves_positivity {K M D : ℕ} (eta : ℝ)
    (Th : Fin M → Fin D → ℝ) (X : Fin K → Fin M → ℝ) (alpha : Fin K → ℝ)
    (h0 : ∀ k, 0 < alpha k) :
    ∀ i (k : Fin K), 0 < MOCB.mirror_descent i eta alpha Th X k := by
  intro i
  induction i with
  | zero => exact h0
  | succ n ih => exact mirrorStep_pos eta Th X _ ih

/-- Witness for C10: two arms, uniform strictly positive `alpha`. -/
theorem mirror_descent_preserves_positivity_witness :
    (∀ k : Fin 2, 0 < (fun _ : Fin 2 => (1 : ℝ) / 2) k) ∧
    ∀ i (k : Fin 2), 0 < MOCB.mirror_descent i 1 (fun _ : Fin 2 => (1 : ℝ) / 2)
      (fun _ : Fin 1 => fun _ : Fin 1 => 0) (fun _ _ => 0) k := by
  have h0 : ∀ k : Fin 2, 0 < (fun _ : Fin 2 => (1 : ℝ) / 2) k := fun _ => by
    norm_num
  exact ⟨h0, mirror_descent_preserves_positivity 1 _ _ _ h0⟩

/-- Helper for C3: the thresholded vector `max(v - m, 0)` is the exact
Euclidean projection of `v` onto the set of nonnegative vectors with its own
coordinate sum, up to the correction term `2m(Σp - Σq)`. -/
theorem clip_nearest_aux (m : ℚ) :
    ∀ (v q : List ℚ), q.length = v.length → (∀ x ∈ q, 0 ≤ x) →
      Misc.dist2 (Misc.clipBelow v m) v +
        2 * m * (Misc.listSum (Misc.clipBelow v m) - Misc.listSum q) ≤
      Misc.dist2 q v := by
  intro v
  induction v with
  | nil =>
    intro q hlen _
    cases q with
    | nil => simp [Misc.dist2, Misc.clipBelow, Misc.listSum]
    | cons b q' => simp at hlen
  | cons a v' ih =>
    intro q hlen hq
    cases q with
    | nil => simp at hlen
    | cons b q' =>
      have hlen' : q'.length = v'.length := by simpa using hlen
      have hb : 0 ≤ b := hq b (List.mem_cons_self b q')
      have hq' : ∀ x ∈ q', 0 ≤ x := fun x hx => hq x (List.mem_cons_of_mem b hx)
      have IH := ih q' hlen' hq'
      have hpt : (max (a - m) 0 - a) ^ 2 + 2 * m * (max (a - m) 0 - b) ≤
          (b - a) ^ 2 := by
        rcases le_total (a - m) 0 with h | h
        · rw [max_eq_right h]
          nlinarith [sq_nonneg b, mul_nonneg hb (neg_nonneg.mpr h)]
        · rw [max_eq_left h]
          nlinarith [sq_nonneg (b - a + m)]
      have e1 : Misc.clipBelow (a :: v') m =
          max (a - m) 0 :: Misc.clipBelow v' m := rfl
      have e2 : ∀ (x y : ℚ) (xs ys : List ℚ),
          Misc.dist2 (x :: xs) (y :: ys) = (x - y) ^ 2 + Misc.dist2 xs ys :=
        fun _ _ _ _ => rfl
      have e3 : ∀ (x : ℚ) (xs : List ℚ),
          Misc.listSum (x :: xs) = x + Misc.listSum xs := fun _ _ => rfl
      rw [e1, e2, e2, e3, e3]
      linarith

/-- Helper: when the very first midpoint already meets the tolerance test,
the bisection loop stops there after one iteration. -/
theorem bisectLoop_break {R : Type} [LinearOrderedField R] (v : List R)
    (z tau : R) (fuel : ℕ) (lower upper : R) (hf : 1 ≤ fuel)
    (h : |Misc.func v z ((upper + lower) / 2)| ≤ tau) :
    Misc.bisectLoop v z tau fuel lower upper =
      some ((upper + lower) / 2, 1) := by
  cases fuel with
  | zero => omega
  | succ n => simp [Misc.bisectLoop, h]

/-- **C3** amended: for every nonempty `v`, any `z`, `tau`, `max_iter`, the
returned `p` (i) is entrywise `≥ 0` (not merely `≥ -tolerance`), (ii) is
`max(v - m, 0)` for the final bisection midpoint `m`, with
`sum(p) = z + func(m)` — so `sum(p)` is within tolerance of `z` exactly when
the final bisection residual is (which the fixed `max_iter = 1000` budget
does not always achieve, and `p` need not be the nearest point among all
vectors with sum within tolerance of `z`), and (iii) `p` is the exact
Euclidean-nearest point to `v` among nonnegative vectors having the same
coordinate sum as `p`. -/
theorem projection_nonneg_and_nearest_for_achieved_sum (v : List ℚ)
    (z tau : ℚ) (mi : ℕ) (p : List ℚ)
    (hp : Misc.projection_simplex_bisection v z tau mi = some p) :
    (∀ x ∈ p, 0 ≤ x) ∧
    (∃ m c, Misc.bisectLoop v z tau mi (Misc.listMin v - z / (v.length : ℚ))
        (Misc.listMax v) = some (m, c) ∧
      p = Misc.clipBelow v m ∧ Misc.listSum p = z + Misc.func v z m) ∧
    ∀ q : List ℚ, q.length = v.length → (∀ x ∈ q, 0 ≤ x) →
      Misc.listSum q = Misc.listSum p →
      Misc.dist2 p v ≤ Misc.dist2 q v := by
  by_cases hv : v = []
  · rw [hv] at hp
    simp [Misc.projection_simplex_bisection] at hp
  rw [Misc.projection_simplex_bisection, if_neg hv] at hp
  rcases hbl : Misc.bisectLoop v z tau mi (Misc.listMin v - z / (v.length : ℚ))
      (Misc.listMax v) with _ | mc
  · rw [hbl] at hp
    simp at hp
  obtain ⟨m, c⟩ := mc
  rw [hbl] at hp
  have hpv : p = Misc.clipBelow v m := by
    cases hp
    rfl
  subst hpv
  refine ⟨?_, ⟨m, c, rfl, rfl, by rw [Misc.func]; ring⟩, ?_⟩
  · intro x hx
    rcases List.mem_map.mp hx with ⟨a, _, rfl⟩
    exact le_max_right _ 0
  · intro q hlen hq hsum
    have haux := clip_nearest_aux m v q hlen hq
    rw [hsum] at haux
    linarith

/-- Witness for C3's amended statement: `v = [0, 3/2]`, `z = 1`; the first
midpoint is `1/2` with residual `0`, so the loop breaks at once and returns
`p = [0, 1]`. -/
theorem projection_nonneg_and_nearest_witness :
    Misc.projection_simplex_bisection [(0 : ℚ), 3 / 2] 1 (1 / 1000000) 1000 =
      some [0, 1] ∧
    ((∀ x ∈ ([(0 : ℚ), 1] : List ℚ), 0 ≤ x) ∧
      (∃ m c, Misc.bisectLoop [(0 : ℚ), 3 / 2] 1 (1 / 1000000) 1000
          (Misc.listMin [(0 : ℚ), 3 / 2] -
            1 / (([(0 : ℚ), 3 / 2] : List ℚ).length : ℚ))
          (Misc.listMax [(0 : ℚ), 3 / 2]) = some (m, c) ∧
        ([(0 : ℚ), 1] : List ℚ) = Misc.clipBelow [(0 : ℚ), 3 / 2] m ∧
        Misc.listSum [(0 : ℚ), 1] = 1 + Misc.func [(0 : ℚ), 3 / 2] 1 m) ∧
      ∀ q : List ℚ, q.length = ([(0 : ℚ), 3 / 2] : List ℚ).length →
        (∀ x ∈ q, 0 ≤ x) →
        Misc.listSum q = Misc.listSum [(0 : ℚ), 1] →
        Misc.dist2 [(0 : ℚ), 1] [(0 : ℚ), 3 / 2] ≤
          Misc.dist2 q [(0 : ℚ), 3 / 2]) := by
  have hmin : Misc.listMin [(0 : ℚ), 3 / 2] = 0 := by
    show min (0 : ℚ) (3 / 2) = 0
    exact min_eq_left (by norm_num)
  have hmax : Misc.listMax [(0 : ℚ), 3 / 2] = 3 / 2 := by
    show max (0 : ℚ) (3 / 2) = 3 / 2
    exact max_eq_right (by norm_num)
  have hbl : Misc.bisectLoop [(0 : ℚ), 3 / 2] 1 (1 / 1000000) 1000
      (Misc.listMin [(0 : ℚ), 3 / 2] -
        1 / (([(0 : ℚ), 3 / 2] : List ℚ).length : ℚ))
      (Misc.listMax [(0 : ℚ), 3 / 2]) = some (1 / 2, 1) := by
    rw [hmin, hmax]
    have harg : (3 / 2 + ((0 : ℚ) - 1 / (([(0 : ℚ), 3 / 2] : List ℚ).length : ℚ))) / 2 =
        1 / 2 := by
      norm_num
    rw [show ((0 : ℚ) - 1 / (([(0 : ℚ), 3 / 2] : List ℚ).length : ℚ)) = -(1 / 2) by
      norm_num]
    have h : |Misc.func [(0 : ℚ), 3 / 2] 1 ((3 / 2 + -(1 / 2)) / 2)| ≤ 1 / 1000000 := by
      norm_num [Misc.func, Misc.clipBelow, Misc.listSum, max_def]
    rw [bisectLoop_break _ _ _ _ _ _ (by norm_num) h]
    norm_num
  have hp : Misc.projection_simplex_bisection [(0 : ℚ), 3 / 2] 1 (1 / 1000000) 1000 =
      some [0, 1] := by
    rw [Misc.projection_simplex_bisection, if_neg (by simp), hbl]
    norm_num [Misc.clipBelow, max_def]
  exact ⟨hp, projection_nonneg_and_nearest_for_achieved_sum _ _ _ _ _ hp⟩

/-- Helper: one unfolding of the bisection loop in the "no break, raise
`lower`" case, with fuel left over. -/
theorem bisectLoop_step_right (v : List ℚ) (z tau lower upper : ℚ) (k : ℕ)
    (h1 : ¬ |Misc.func v z ((upper + lower) / 2)| ≤ tau)
    (h2 : ¬ Misc.func v z ((upper + lower) / 2) ≤ 0) :
    Misc.bisectLoop v z tau (k + 2) lower upper =
      (Misc.bisectLoop v z tau (k + 1) ((upper + lower) / 2) upper).map
        (fun p => (p.1, p.2 + 1)) := by
  conv_lhs => rw [Misc.bisectLoop]
  simp only [if_neg h1, if_neg h2, if_neg (Nat.succ_ne_zero k)]

/-- Helper for C3's counterexample: when the objective stays above the
tolerance at every midpoint of the right-half trajectory, the loop never
breaks, always raises `lower`, and exhausts its fuel with final midpoint
`u - w / 2 ^ fuel`. -/
theorem bisect_all_right (v : List ℚ) (z tau : ℚ) (htau : 0 ≤ tau) (u : ℚ) :
    ∀ (fuel : ℕ) (w : ℚ), 1 ≤ fuel →
      (∀ j : ℕ, 1 ≤ j → j ≤ fuel → tau < Misc.func v z (u - w / 2 ^ j)) →
      Misc.bisectLoop v z tau fuel (u - w) u =
        some (u - w / 2 ^ fuel, fuel) := by
  intro fuel
  induction fuel with
  | zero => intro w h _; omega
  | succ n ih =>
    intro w _ hj
    have hmid : (u + (u - w)) / 2 = u - w / 2 ^ 1 := by ring
    have hval : tau < Misc.func v z ((u + (u - w)) / 2) := by
      rw [hmid]
      exact hj 1 (by omega) (by omega)
    have h1 : ¬ |Misc.func v z ((u + (u - w)) / 2)| ≤ tau :=
      not_le.mpr (lt_of_lt_of_le hval (le_abs_self _))
    have h2 : ¬ Misc.func v z ((u + (u - w)) / 2) ≤ 0 :=
      not_le.mpr (lt_of_le_of_lt htau hval)
    cases n with
    | zero => simp [Misc.bisectLoop, h1, hmid]
    | succ k =>
      have hdiv : ∀ j : ℕ, w / 2 / 2 ^ j = w / 2 ^ (j + 1) := by
        intro j
        rw [div_div, ← pow_succ']
      have hj' : ∀ j : ℕ, 1 ≤ j → j ≤ k + 1 →
          tau < Misc.func v z (u - w / 2 / 2 ^ j) := by
        intro j hj1 hjn
        rw [hdiv j]
        exact hj (j + 1) (by omega) (by omega)
      have hrec := ih (w / 2) (by omega) hj'
      have hmid2 : (u + (u - w)) / 2 = u - w / 2 := by ring
      rw [bisectLoop_step_right v z tau (u - w) u k h1 h2, hmid2, hrec]
      simp [hdiv (k + 1)]

/-- **C3** counterexample: both universally quantified guarantees of the
claim fail on concrete inputs (`z = 1`, default `tau = 10⁻⁶`,
`max_iter = 1000`).  For `v = [0, 3/2 + 10⁻⁶]` the bisection breaks at the
first midpoint and returns `p = [0, 1 + 1/2·10⁻⁶]`, which does satisfy the
claimed sum/nonnegativity constraints — yet `q = [-10⁻⁶, 1 + 2·10⁻⁶]` also
satisfies them and is strictly closer to `v`, so `p` is not the
Euclidean-nearest point among vectors satisfying those constraints.  For
`v = [0, 2^1020]` the loop exhausts all 1000 iterations and returns a
vector whose sum `2^20 + 2^(-1001)` misses `z = 1` by far more than the
tolerance. -/
theorem projection_claim_counterexample :
    (Misc.projection_simplex_bisection [(0 : ℚ), 3 / 2 + 1 / 1000000] 1
        (1 / 1000000) 1000 = some [0, 1 + 1 / 2000000] ∧
      |Misc.listSum [(0 : ℚ), 1 + 1 / 2000000] - 1| ≤ 1 / 1000000 ∧
      -(1 / 1000000 : ℚ) ≤ -(1 / 1000000 : ℚ) ∧
      -(1 / 1000000 : ℚ) ≤ 1 + 2 / 1000000 ∧
      |Misc.listSum [-(1 / 1000000 : ℚ), 1 + 2 / 1000000] - 1| ≤ 1 / 1000000 ∧
      Misc.dist2 [-(1 / 1000000 : ℚ), 1 + 2 / 1000000]
          [(0 : ℚ), 3 / 2 + 1 / 1000000] <
        Misc.dist2 [(0 : ℚ), 1 + 1 / 2000000] [(0 : ℚ), 3 / 2 + 1 / 1000000]) ∧
    (Misc.projection_simplex_bisection [(0 : ℚ), 2 ^ 1020] 1 (1 / 1000000)
        1000 = some [0, ((2 : ℚ) ^ 1020 + 1 / 2) / 2 ^ 1000] ∧
      ¬ |Misc.listSum [(0 : ℚ), ((2 : ℚ) ^ 1020 + 1 / 2) / 2 ^ 1000] - 1| ≤
        1 / 1000000) := by
  constructor
  · have hmin : Misc.listMin [(0 : ℚ), 3 / 2 + 1 / 1000000] = 0 := by
      show min (0 : ℚ) (3 / 2 + 1 / 1000000) = 0
      exact min_eq_left (by norm_num)
    have hmax : Misc.listMax [(0 : ℚ), 3 / 2 + 1 / 1000000] =
        3 / 2 + 1 / 1000000 := by
      show max (0 : ℚ) (3 / 2 + 1 / 1000000) = 3 / 2 + 1 / 1000000
      exact max_eq_right (by norm_num)
    have hfun : |Misc.func [(0 : ℚ), 3 / 2 + 1 / 1000000] 1
        ((3 / 2 + 1 / 1000000 +
          ((0 : ℚ) - 1 / (([(0 : ℚ), 3 / 2 + 1 / 1000000] : List ℚ).length : ℚ))) /
            2)| ≤ 1 / 1000000 := by
      norm_num [Misc.func, Misc.clipBelow, Misc.listSum, max_def, abs_le]
    have hbl := bisectLoop_break [(0 : ℚ), 3 / 2 + 1 / 1000000] 1 (1 / 1000000)
      1000 _ _ (by norm_num) hfun
    have hproj : Misc.projection_simplex_bisection [(0 : ℚ), 3 / 2 + 1 / 1000000]
        1 (1 / 1000000) 1000 = some [0, 1 + 1 / 2000000] := by
      rw [Misc.projection_simplex_bisection, if_neg (by simp), hmin, hmax]
      rw [hbl]
      norm_num [Misc.clipBelow, max_def]
    exact ⟨hproj, by norm_num [Misc.listSum, abs_le], by norm_num, by norm_num,
      by norm_num [Misc.listSum, abs_le],
      by norm_num [Misc.dist2, Misc.listSum, List.zip_cons_cons]⟩
  · have hu1 : (1 : ℚ) ≤ 2 ^ 1020 := by
      calc (1 : ℚ) = 1 ^ 1020 := (one_pow _).symm
      _ ≤ 2 ^ 1020 := pow_le_pow_left₀ (by norm_num) (by norm_num) _
    have hquot : ((2 : ℚ) ^ 1020) / 2 ^ 1000 = 2 ^ 20 := by
      rw [show (1020 : ℕ) = 1000 + 20 by norm_num, pow_add]
      exact mul_div_cancel_left₀ _ (pow_ne_zero _ (by norm_num))
    have hfunc : ∀ x : ℚ, 0 ≤ x → x ≤ 2 ^ 1020 →
        Misc.func [(0 : ℚ), 2 ^ 1020] 1 x = 2 ^ 1020 - x - 1 := by
      intro x h0 h1
      show max ((0 : ℚ) - x) 0 + (max ((2 : ℚ) ^ 1020 - x) 0 + 0) - 1 =
        2 ^ 1020 - x - 1
      rw [max_eq_right (by linarith), max_eq_left (by linarith)]
      ring
    have hfrac_le2 : ∀ j : ℕ, 1 ≤ j →
        ((2 : ℚ) ^ 1020 + 1 / 2) / 2 ^ j ≤ ((2 : ℚ) ^ 1020 + 1 / 2) / 2 := by
      intro j hj1
      have h2le : (2 : ℚ) ≤ 2 ^ j := by
        calc (2 : ℚ) = 2 ^ 1 := (pow_one 2).symm
        _ ≤ 2 ^ j := pow_le_pow_right₀ (by norm_num) hj1
      exact div_le_div_of_nonneg_left (by positivity) (by norm_num) h2le
    have hxj0 : ∀ j : ℕ, 1 ≤ j →
        (0 : ℚ) ≤ 2 ^ 1020 - ((2 : ℚ) ^ 1020 + 1 / 2) / 2 ^ j := by
      intro j hj1
      have h1 := hfrac_le2 j hj1
      have h2 : ((2 : ℚ) ^ 1020 + 1 / 2) / 2 ≤ 2 ^ 1020 := by linarith
      linarith
    have hj : ∀ j : ℕ, 1 ≤ j → j ≤ 1000 →
        (1 / 1000000 : ℚ) < Misc.func [(0 : ℚ), 2 ^ 1020] 1
          (2 ^ 1020 - ((2 : ℚ) ^ 1020 + 1 / 2) / 2 ^ j) := by
      intro j hj1 hj1000
      have hx0 := hxj0 j hj1
      have hxu : (2 : ℚ) ^ 1020 - ((2 : ℚ) ^ 1020 + 1 / 2) / 2 ^ j ≤ 2 ^ 1020 := by
        have : (0 : ℚ) ≤ ((2 : ℚ) ^ 1020 + 1 / 2) / 2 ^ j := by positivity
        linarith
      rw [hfunc _ hx0 hxu]
      have hmono : ((2 : ℚ) ^ 1020 + 1 / 2) / 2 ^ 1000 ≤
          ((2 : ℚ) ^ 1020 + 1 / 2) / 2 ^ j := by
        exact div_le_div_of_nonneg_left (by positivity) (by positivity)
          (pow_le_pow_right₀ (by norm_num) hj1000)
      have hnum : ((2 : ℚ) ^ 1020) / 2 ^ 1000 ≤
          ((2 : ℚ) ^ 1020 + 1 / 2) / 2 ^ 1000 := by
        exact (div_le_div_iff_of_pos_right (by positivity)).mpr (by linarith)
      rw [hquot] at hnum
      have h20 : (1 / 1000000 : ℚ) < 2 ^ 20 - 1 := by norm_num
      linarith
    have hball := bisect_all_right [(0 : ℚ), 2 ^ 1020] 1 (1 / 1000000)
      (by norm_num) (2 ^ 1020) 1000 ((2 : ℚ) ^ 1020 + 1 / 2) (by norm_num) hj
    have hmin : Misc.listMin [(0 : ℚ), 2 ^ 1020] = 0 := by
      show min (0 : ℚ) (2 ^ 1020) = 0
      exact min_eq_left (by positivity)
    have hmax : Misc.listMax [(0 : ℚ), 2 ^ 1020] = 2 ^ 1020 := by
      show max (0 : ℚ) (2 ^ 1020) = 2 ^ 1020
      exact max_eq_right (by positivity)
    have hlow : Misc.listMin [(0 : ℚ), 2 ^ 1020] -
        1 / (([(0 : ℚ), 2 ^ 1020] : List ℚ).length : ℚ) =
        2 ^ 1020 - ((2 : ℚ) ^ 1020 + 1 / 2) := by
      rw [hmin]
      norm_num
    have hm0 := hxj0 1000 (by norm_num)
    have hproj : Misc.projection_simplex_bisection [(0 : ℚ), 2 ^ 1020] 1
        (1 / 1000000) 1000 = some [0, ((2 : ℚ) ^ 1020 + 1 / 2) / 2 ^ 1000] := by
      rw [Misc.projection_simplex_bisection, if_neg (by simp), hlow, hmax, hball]
      have hfr0 : (0 : ℚ) ≤ ((2 : ℚ) ^ 1020 + 1 / 2) / 2 ^ 1000 := by positivity
      have hc : Misc.clipBelow [(0 : ℚ), 2 ^ 1020]
          (2 ^ 1020 - ((2 : ℚ) ^ 1020 + 1 / 2) / 2 ^ 1000) =
          [0, ((2 : ℚ) ^ 1020 + 1 / 2) / 2 ^ 1000] := by
        show [max ((0 : ℚ) - (2 ^ 1020 - ((2 : ℚ) ^ 1020 + 1 / 2) / 2 ^ 1000)) 0,
          max ((2 : ℚ) ^ 1020 - (2 ^ 1020 - ((2 : ℚ) ^ 1020 + 1 / 2) / 2 ^ 1000)) 0] =
          [0, ((2 : ℚ) ^ 1020 + 1 / 2) / 2 ^ 1000]
        rw [max_eq_right (by linarith), show (2 : ℚ) ^ 1020 -
          (2 ^ 1020 - ((2 : ℚ) ^ 1020 + 1 / 2) / 2 ^ 1000) =
          ((2 : ℚ) ^ 1020 + 1 / 2) / 2 ^ 1000 by ring, max_eq_left (by linarith)]
      simp only [Option.map_some']
      rw [hc]
    refine ⟨hproj, ?_⟩
    have hsum : Misc.listSum [(0 : ℚ), ((2 : ℚ) ^ 1020 + 1 / 2) / 2 ^ 1000] =
        ((2 : ℚ) ^ 1020 + 1 / 2) / 2 ^ 1000 := by
      show (0 : ℚ) + (((2 : ℚ) ^ 1020 + 1 / 2) / 2 ^ 1000 + 0) =
        ((2 : ℚ) ^ 1020 + 1 / 2) / 2 ^ 1000
      ring
    rw [hsum]
    have hnum : ((2 : ℚ) ^ 1020) / 2 ^ 1000 ≤
        ((2 : ℚ) ^ 1020 + 1 / 2) / 2 ^ 1000 := by
      exact (div_le_div_iff_of_pos_right (by positivity)).mpr (by linarith)
    rw [hquot] at hnum
    have hbig : (1 / 1000000 : ℚ) <
        ((2 : ℚ) ^ 1020 + 1 / 2) / 2 ^ 1000 - 1 := by
      have h20 : (1 / 1000000 : ℚ) < 2 ^ 20 - 1 := by norm_num
      linarith
    exact not_le.mpr (lt_of_lt_of_le hbig (le_abs_self _))

/-- **C1** (code bug): the per-round update of `A` does not add the outer
product.  `X[k]` is a 1-D numpy array, so `X[k].dot(X[k].T)` is the scalar
inner product `‖x‖²`, which `A += ...` broadcast-adds to every entry of
`A`.  After a `T = 1` run with `lam = 1` and feature vector `x = (1, 0)`,
the code's `A` is `[[2, 1], [1, 2]]` (that is, `lam·I + ‖x‖²·J` for the
all-ones matrix `J`), whereas the `lam·I + x·xᵀ` demanded by the claim is
`[[2, 0], [0, 1]]`; the two differ.  (`B`, whose update reshapes before
multiplying, does receive the outer product `x·rᵀ`: with reward `r = (1)`,
`B = [[1], [0]]`.) -/
theorem A_update_is_scalar_broadcast_not_outer_product :
    (MOCB.gaussian_test MOCB.envUnit 1 1 1 1).A =
      Matrix.of ![![2, 1], ![1, 2]] ∧
    (1 : ℝ) • (1 : Matrix (Fin 2) (Fin 2) ℝ) +
      Matrix.of (fun i j => (![(1 : ℝ), 0]) i * (![(1 : ℝ), 0]) j) =
      Matrix.of ![![2, 0], ![0, 1]] ∧
    (MOCB.gaussian_test MOCB.envUnit 1 1 1 1).A ≠
      (1 : ℝ) • (1 : Matrix (Fin 2) (Fin 2) ℝ) +
        Matrix.of (fun i j => (![(1 : ℝ), 0]) i * (![(1 : ℝ), 0]) j) ∧
    (MOCB.gaussian_test MOCB.envUnit 1 1 1 1).B =
      Matrix.of (fun i _j => (![(1 : ℝ), 0]) i * 1) := by
  have hA : (MOCB.gaussian_test MOCB.envUnit 1 1 1 1).A =
      Matrix.of ![![2, 1], ![1, 2]] := by
    show (MOCB.roundStep 1 1 MOCB.envUnit 0 (MOCB.initState 0 2 1 1)).A =
      Matrix.of ![![2, 1], ![1, 2]]
    ext i j
    simp only [MOCB.roundStep, MOCB.initState, MOCB.envUnit, Matrix.of_apply,
      Matrix.smul_apply, Matrix.one_apply, Fin.sum_univ_two]
    fin_cases i <;> fin_cases j <;> norm_num
  have hout : (1 : ℝ) • (1 : Matrix (Fin 2) (Fin 2) ℝ) +
      Matrix.of (fun i j => (![(1 : ℝ), 0]) i * (![(1 : ℝ), 0]) j) =
      Matrix.of ![![2, 0], ![0, 1]] := by
    ext i j
    simp only [Matrix.add_apply, Matrix.of_apply, Matrix.smul_apply,
      Matrix.one_apply]
    fin_cases i <;> fin_cases j <;> norm_num
  have hB : (MOCB.gaussian_test MOCB.envUnit 1 1 1 1).B =
      Matrix.of (fun i _j => (![(1 : ℝ), 0]) i * 1) := by
    show (MOCB.roundStep 1 1 MOCB.envUnit 0 (MOCB.initState 0 2 1 1)).B =
      Matrix.of (fun i _j => (![(1 : ℝ), 0]) i * 1)
    ext i j
    simp only [MOCB.roundStep, MOCB.initState, MOCB.envUnit, Matrix.of_apply,
      Matrix.zero_apply, Fin.sum_univ_two]
    fin_cases i <;> fin_cases j <;> norm_num
  refine ⟨hA, hout, ?_, hB⟩
  rw [hA, hout]
  intro hcontra
  have h01 : (Matrix.of ![![(2 : ℝ), 1], ![1, 2]]) 0 1 =
      (Matrix.of ![![(2 : ℝ), 0], ![0, 1]]) 0 1 := by rw [hcontra]
  simp [Matrix.of_apply] at h01

/-- **C2** (code bug): the running metric is not skipped at round 0: a
`T = 1` run records a round-0 entry in `GGI_list`, computed by
`roundMetric _ 0`, i.e. as `np.sort(r_ave / 0).dot(w)` — a division by
`t = 0` (±inf/nan in numpy; the junk value `x / 0 = 0` in this real-number
embedding), contradicting the claim that the metric is computed only for
`t ≥ 1`. -/
theorem round0_metric_divides_by_zero :
    (MOCB.gaussian_test MOCB.envUnit 1 1 1 1).ggi =
      [MOCB.roundMetric (fun _ : Fin 1 => (1 : ℝ)) 0] ∧
    MOCB.roundMetric (fun _ : Fin 1 => (1 : ℝ)) 0 =
      Misc.dotList
        (MOCB.sortAsc (List.ofFn fun _ : Fin 1 => (1 : ℝ) / ((0 : ℕ) : ℝ)))
        (MOCB.wList 1) := by
  constructor
  · show (MOCB.roundStep 1 1 MOCB.envUnit 0 (MOCB.initState 0 2 1 1)).ggi =
      [MOCB.roundMetric (fun _ : Fin 1 => (1 : ℝ)) 0]
    simp only [MOCB.roundStep, MOCB.initState, MOCB.envUnit, List.nil_append]
    congr 1
    congr 1
    funext d
    norm_num [Fin.sum_univ_two]
  · rfl

/-- Helper for C8: one round adds a single nonnegative scalar (the squared
norm of the chosen arm's feature vector) to every entry of `A`. -/
theorem roundStep_A_shape {n M D : ℕ} (eta : ℝ) (Iiter : ℕ)
    (env : MOCB.Env (n + 1) M D) (t : ℕ) (s : MOCB.RunState (n + 1) M D) :
    ∃ S : ℝ, 0 ≤ S ∧
      (MOCB.roundStep eta Iiter env t s).A =
        Matrix.of fun i j => s.A i j + S := by
  refine ⟨_, ?_, rfl⟩
  exact Finset.sum_nonneg fun m _ => mul_self_nonneg _

/-- Helper for C8: at every point of the run, `A = lam·I + c·J` for some
`c ≥ 0` (`J` the all-ones matrix). -/
theorem run_A_shape {n M D : ℕ} (env : MOCB.Env (n + 1) M D) (lam eta : ℝ)
    (Iiter : ℕ) : ∀ t : ℕ, ∃ c : ℝ, 0 ≤ c ∧
      (MOCB.gaussian_test env lam eta Iiter t).A =
        Matrix.of fun i j => lam * (if i = j then 1 else 0) + c := by
  intro t
  induction t with
  | zero =>
    refine ⟨0, le_refl 0, ?_⟩
    show lam • (1 : Matrix (Fin M) (Fin M) ℝ) = _
    ext i j
    simp [Matrix.one_apply, mul_ite]
  | succ k ih =>
    obtain ⟨c, hc, hA⟩ := ih
    obtain ⟨S, hS, hstep⟩ := roundStep_A_shape eta Iiter env k
      (MOCB.gaussian_test env lam eta Iiter k)
    refine ⟨c + S, by linarith, ?_⟩
    rw [show MOCB.gaussian_test env lam eta Iiter (k + 1) =
        MOCB.roundStep eta Iiter env k (MOCB.gaussian_test env lam eta Iiter k)
      from rfl, hstep, hA]
    ext i j
    simp only [Matrix.of_apply]
    ring

/-- Helper for C8: the quadratic form of `lam·I + c·J`. -/
theorem quadform_diagJ {M : ℕ} (lam c : ℝ) (v : Fin M → ℝ) :
    (∑ i, ∑ j, v i *
        (Matrix.of fun i j : Fin M => lam * (if i = j then 1 else 0) + c) i j *
        v j) =
      lam * (∑ i, v i * v i) + c * (∑ i, v i) * (∑ i, v i) := by
  have hterm : ∀ i : Fin M,
      (∑ j, v i * (lam * (if i = j then 1 else 0) + c) * v j) =
        lam * (v i * v i) + c * v i * ∑ j, v j := by
    intro i
    have hsplit : ∀ j : Fin M,
        v i * (lam * (if i = j then 1 else 0) + c) * v j =
          lam * (if i = j then v i * v j else 0) + c * v i * v j := by
      intro j
      by_cases h : i = j
      · rw [if_pos h, if_pos h]
        ring
      · rw [if_neg h, if_neg h]
        ring
    rw [Finset.sum_congr rfl fun j _ => hsplit j, Finset.sum_add_distrib,
      ← Finset.mul_sum, Finset.sum_ite_eq]
    simp only [Finset.mem_univ, if_true]
    rw [show (∑ j, c * v i * v j) = c * v i * ∑ j, v j from
      (Finset.mul_sum _ _ _).symm]
  simp only [Matrix.of_apply]
  rw [Finset.sum_congr rfl fun i _ => hterm i, Finset.sum_add_distrib,
    ← Finset.mul_sum]
  rw [show (∑ i, c * v i * ∑ j, v j) = (∑ i, v i) * (c * ∑ j, v j) by
    rw [Finset.sum_mul]
    exact Finset.sum_congr rfl fun i _ => by ring]
  ring

/-- Helper for C8: the product of two matrices of the form `a·I + b·J`. -/
theorem diagJ_mul {M : ℕ} (a1 b1 a2 b2 : ℝ) :
    (Matrix.of fun i j : Fin M => a1 * (if i = j then 1 else 0) + b1) *
      (Matrix.of fun i j : Fin M => a2 * (if i = j then 1 else 0) + b2) =
    Matrix.of fun i j : Fin M =>
      (a1 * a2) * (if i = j then 1 else 0) +
        (a1 * b2 + b1 * a2 + b1 * b2 * (M : ℝ)) := by
  ext i j
  simp only [Matrix.mul_apply, Matrix.of_apply]
  have hsplit : ∀ k : Fin M,
      (a1 * (if i = k then 1 else 0) + b1) *
        (a2 * (if k = j then 1 else 0) + b2) =
      (a1 * a2) * ((if i = k then (1 : ℝ) else 0) * (if k = j then 1 else 0)) +
        (a1 * b2) * (if i = k then 1 else 0) +
        (b1 * a2) * (if k = j then 1 else 0) + b1 * b2 := by
    intro k
    ring
  rw [Finset.sum_congr rfl fun k _ => hsplit k, Finset.sum_add_distrib,
    Finset.sum_add_distrib, Finset.sum_add_distrib]
  have h1 : (∑ k : Fin M, (a1 * a2) *
      ((if i = k then (1 : ℝ) else 0) * (if k = j then 1 else 0))) =
      (a1 * a2) * (if i = j then 1 else 0) := by
    rw [← Finset.mul_sum]
    congr 1
    simp [ite_mul, Finset.sum_ite_eq]
  have h2 : (∑ k : Fin M, (a1 * b2) * (if i = k then (1 : ℝ) else 0)) =
      a1 * b2 := by
    rw [← Finset.mul_sum]
    simp [Finset.sum_ite_eq]
  have h3 : (∑ k : Fin M, (b1 * a2) * (if k = j then (1 : ℝ) else 0)) =
      b1 * a2 := by
    rw [← Finset.mul_sum]
    simp [Finset.sum_ite_eq']
  have h4 : (∑ _k : Fin M, b1 * b2) = b1 * b2 * (M : ℝ) := by
    simp [Finset.sum_const, Finset.card_univ, mul_comm]
  rw [h1, h2, h3, h4]
  ring

/-- **C8** (confirmed): for `lam > 0` the accumulator `A` is symmetric
positive definite at every point of the run — after the initialization to
`lam·I` and after each per-round update — and an explicit two-sided inverse
exists, so the `A⁻¹` used to compute `Theta_hat` at the start of each round
inverts a genuinely invertible matrix.  (This holds for the code as
written: the buggy scalar-broadcast update of C1 adds `‖x‖²·J`, and
`lam·I + c·J` with `c ≥ 0` is still SPD.) -/
theorem run_A_posdef_and_invertible {n M D : ℕ} (env : MOCB.Env (n + 1) M D)
    (lam eta : ℝ) (Iiter : ℕ) (hlam : 0 < lam) (t : ℕ) :
    MOCB.IsSPD ((MOCB.gaussian_test env lam eta Iiter t).A) ∧
    ∃ Ainv : Matrix (Fin M) (Fin M) ℝ,
      (MOCB.gaussian_test env lam eta Iiter t).A * Ainv = 1 ∧
      Ainv * (MOCB.gaussian_test env lam eta Iiter t).A = 1 := by
  obtain ⟨c, hc, hA⟩ := run_A_shape env lam eta Iiter t
  have hdenom : 0 < lam + c * (M : ℝ) :=
    add_pos_of_pos_of_nonneg hlam (mul_nonneg hc (Nat.cast_nonneg M))
  constructor
  · constructor
    · intro i j
      rw [hA]
      simp only [Matrix.of_apply]
      by_cases h : i = j
      · rw [h]
      · rw [if_neg h, if_neg (fun hji => h hji.symm)]
    · intro v hv
      rw [hA, quadform_diagJ]
      have hex : ∃ i, v i ≠ 0 := by
        by_contra hall
        push_neg at hall
        exact hv (funext hall)
      obtain ⟨i0, hi0⟩ := hex
      have hsq : 0 < ∑ i, v i * v i := by
        refine Finset.sum_pos' (fun i _ => mul_self_nonneg _) ?_
        exact ⟨i0, Finset.mem_univ i0, mul_self_pos.mpr hi0⟩
      have hc2 : 0 ≤ c * (∑ i, v i) * (∑ i, v i) := by
        rcases le_total 0 (∑ i, v i) with h | h
        · positivity
        · have : 0 ≤ (∑ i, v i) * (∑ i, v i) := mul_self_nonneg _
          nlinarith
      nlinarith
  · refine ⟨Matrix.of fun i j => lam⁻¹ * (if i = j then 1 else 0) +
      -(c / (lam * (lam + c * (M : ℝ)))), ?_, ?_⟩
    · rw [hA, diagJ_mul]
      have hscal : lam * -(c / (lam * (lam + c * (M : ℝ)))) + c * lam⁻¹ +
          c * -(c / (lam * (lam + c * (M : ℝ)))) * (M : ℝ) = 0 := by
        field_simp
        ring
      ext i j
      simp only [Matrix.of_apply, Matrix.one_apply]
      rw [mul_inv_cancel₀ hlam.ne', hscal]
      by_cases h : i = j <;> simp [h]
    · rw [hA, diagJ_mul]
      have hscal : lam⁻¹ * c + -(c / (lam * (lam + c * (M : ℝ)))) * lam +
          -(c / (lam * (lam + c * (M : ℝ)))) * c * (M : ℝ) = 0 := by
        field_simp
        ring
      ext i j
      simp only [Matrix.of_apply, Matrix.one_apply]
      rw [inv_mul_cancel₀ hlam.ne', hscal]
      by_cases h : i = j <;> simp [h]

/-- Witness for C8 at `lam = 1`, the concrete environment `envUnit`, and
`t = 2` completed rounds. -/
theorem run_A_posdef_and_invertible_witness :
    (0 : ℝ) < 1 ∧
    (MOCB.IsSPD ((MOCB.gaussian_test MOCB.envUnit 1 1 1 2).A) ∧
    ∃ Ainv : Matrix (Fin 2) (Fin 2) ℝ,
      (MOCB.gaussian_test MOCB.envUnit 1 1 1 2).A * Ainv = 1 ∧
      Ainv * (MOCB.gaussian_test MOCB.envUnit 1 1 1 2).A = 1) :=
  ⟨one_pos, run_A_posdef_and_invertible MOCB.envUnit 1 1 1 one_pos 2⟩

end Claims
